import Mathlib

/-!
Verification development for the `workspaces focus` command
(`src/packages/plugin-workspace-tools/sources/commands/focus.ts`).

The embedding models the in-memory project graph (ordered workspace list,
the two derived indexes, per-workspace manifests with three dependency
scopes), the transitive-closure loop over hard-dependency edges, the
eviction procedure, the seed-selection policy and the scoped install
driver.  Workspace object identity is modelled by a numeric id (`wid`);
JS `Set` insertion-order semantics are modelled by duplicate-free lists
grown at the end.
-/

namespace Focus

abbrev WsId := Nat
abbrev IdentHash := Nat
abbrev CwdPath := Nat
abbrev Range := Nat

/-- A dependency descriptor: a package identity together with a version
range.  Ranges are opaque to the focus command. -/
structure Descriptor where
  ident : IdentHash
  range : Range
deriving DecidableEq

/-- The three dependency scopes of a manifest. -/
inductive DepScope where
  | dependencies
  | devDependencies
  | peerDependencies
deriving DecidableEq

/-- Per-workspace manifest: one descriptor list per dependency scope
(modelling the `Map` from ident to descriptor of `@yarnpkg/core`). -/
structure Manifest where
  dependencies : List Descriptor
  devDependencies : List Descriptor
  peerDependencies : List Descriptor
deriving DecidableEq

/-- Modelled from the spec: `Manifest.getForScope` of `@yarnpkg/core` is
not under `src/`; per the spec's data model, a manifest holds, for each
dependency scope, a mapping from package identity to a version range
descriptor, and `getForScope` returns the mapping of the given scope. -/
def Manifest.getForScope (m : Manifest) : DepScope → List Descriptor
  | .dependencies => m.dependencies
  | .devDependencies => m.devDependencies
  | .peerDependencies => m.peerDependencies

/-- Modelled from the spec: `Manifest.hardDependencies` of `@yarnpkg/core`
is not under `src/`; the spec fixes the hard dependency scopes as
`dependencies` and `devDependencies`, excluding `peerDependencies`. -/
def hardDependencies : List DepScope :=
  [DepScope.dependencies, DepScope.devDependencies]

/-- A workspace: object identity `wid`, package identity hash, filesystem
location and manifest. -/
structure Workspace where
  wid : WsId
  identHash : IdentHash
  cwd : CwdPath
  manifest : Manifest
deriving DecidableEq

/-- The in-memory project: the ordered workspace list, the two derived
indexes (by path and by package identity, each mapping a key to a
workspace id), the id of the top-level (root) workspace, and the
descriptor-resolution function supplied by the external project model
(`tryWorkspaceByDescriptor`: `some` an in-project workspace, or `none`
for an external package). -/
structure Project where
  workspaces : List Workspace
  workspacesByCwd : List (CwdPath × WsId)
  workspacesByIdent : List (IdentHash × WsId)
  topLevel : WsId
  resolve : Descriptor → Option WsId

/-- Manifest of the workspace with the given id (empty when the id is not
in the project; the closure loop only ever looks up project members). -/
def manifestOf (P : Project) (w : WsId) : Manifest :=
  match P.workspaces.find? (fun u => u.wid == w) with
  | some u => u.manifest
  | none => ⟨[], [], []⟩

/-- JS `Set.add`: append the element unless already present. -/
def addIfAbsent (acc : List WsId) (t : WsId) : List WsId :=
  if t ∈ acc then acc else acc ++ [t]

/-- JS `new Set(l)`: deduplicate keeping first occurrences. -/
def setOfList (l : List WsId) : List WsId :=
  l.foldl addIfAbsent []

/-- Inner loop of the closure pass (focus.ts lines 70-77): for each
descriptor of one scope, resolve it against the project and add the
matching workspace, skipping descriptors that resolve to `null`. -/
def processScope (P : Project) (acc : List WsId) (descs : List Descriptor) :
    List WsId :=
  descs.foldl (fun a d =>
    match P.resolve d with
    | none => a
    | some t => addIfAbsent a t) acc

/-- Body of the closure loop for one required workspace (focus.ts lines
69-78): scan both hard dependency scopes in order. -/
def processWorkspace (P : Project) (acc : List WsId) (w : WsId) : List WsId :=
  hardDependencies.foldl
    (fun a dt => processScope P a ((manifestOf P w).getForScope dt)) acc

/-- The grow-while-iterating loop of focus.ts lines 68-79: `acc` is the
required set in insertion order, `i` the iteration cursor; new elements
appended during iteration are reached later.  The fuel argument is a
modelling artifact; `closure_fuel_sufficient` shows the canonical fuel
reaches the fixpoint. -/
def closureAux (P : Project) : Nat → List WsId → Nat → List WsId
  | 0, acc, _ => acc
  | fuel+1, acc, i =>
    if h : i < acc.length then
      closureAux P fuel (processWorkspace P acc (acc.get ⟨i, h⟩)) (i+1)
    else acc

/-- Canonical fuel: one step per possible element of the required set. -/
def closureFuel (P : Project) (seed0 : List WsId) : Nat :=
  seed0.length + P.workspaces.length + 1

/-- The required set computed by the Closure Engine from a seed list. -/
def computeRequired (P : Project) (seed : List WsId) : List WsId :=
  closureAux P (closureFuel P (setOfList seed)) (setOfList seed) 0

/-- All in-project resolution targets of a workspace's hard dependency
scopes. -/
def hardTargets (P : Project) (w : WsId) : List WsId :=
  ((manifestOf P w).dependencies).filterMap P.resolve ++
    ((manifestOf P w).devDependencies).filterMap P.resolve

/-- Hard-dependency edge of the workspace graph. -/
def hardEdge (P : Project) (u v : WsId) : Prop :=
  v ∈ hardTargets P u

/-- Well-formedness of the external resolution function: hard-dependency
descriptors of project members resolve to in-project workspaces. -/
def ResolvesInProject (P : Project) : Prop :=
  ∀ u ∈ P.workspaces, ∀ t ∈ hardTargets P u.wid,
    t ∈ P.workspaces.map Workspace.wid

instance (P : Project) : Decidable (ResolvesInProject P) := by
  unfold ResolvesInProject
  infer_instance

/-! ## Eviction Executor (focus.ts lines 84-105) -/

/-- Clearing the `devDependencies` scope (production mode, line 88). -/
def clearDev (m : Manifest) : Manifest :=
  { m with devDependencies := [] }

/-- Clearing all three scopes (lines 91-93). -/
def clearAllScopes (_m : Manifest) : Manifest :=
  ⟨[], [], []⟩

/-- Manifest mutation applied to one workspace by the first eviction pass
(lines 85-98). -/
def mutateWs (production : Bool) (required : List WsId) (w : Workspace) :
    Workspace :=
  if w.wid ∈ required then
    if production then { w with manifest := clearDev w.manifest } else w
  else
    { w with manifest := clearAllScopes w.manifest }

/-- The evictions array collected by the first pass (lines 84-97): the
non-required, non-root workspaces, in list order, as mutated objects. -/
def evictionList (required : List WsId) (top : WsId) (ws : List Workspace) :
    List Workspace :=
  ws.filter (fun w => decide (w.wid ∉ required ∧ w.wid ≠ top))

/-- One step of the removal pass (lines 101-105): delete the workspace
from both indexes (by its cwd and identity-hash keys) and splice it out
of the ordered list (first occurrence by object identity). -/
def removeOne (P : Project) (e : Workspace) : Project :=
  { P with
    workspacesByCwd := P.workspacesByCwd.filter (fun kv => kv.1 != e.cwd)
    workspacesByIdent :=
      P.workspacesByIdent.filter (fun kv => kv.1 != e.identHash)
    workspaces := P.workspaces.eraseP (fun w => w.wid == e.wid) }

/-- Result of the manifest-mutation pass on the ordered list. -/
def mutatedList (production : Bool) (required : List WsId) (P : Project) :
    List Workspace :=
  P.workspaces.map (mutateWs production required)

/-- The evictions collected while running the manifest-mutation pass. -/
def evictedWs (production : Bool) (required : List WsId) (P : Project) :
    List Workspace :=
  evictionList required P.topLevel (mutatedList production required P)

/-- The full eviction procedure (lines 84-105): manifest-mutation pass,
then removal pass over the collected evictions. -/
def evict (production : Bool) (required : List WsId) (P : Project) :
    Project :=
  (evictedWs production required P).foldl removeOne
    { P with workspaces := mutatedList production required P }

/-! ## Seed selection and the Scoped Install Driver -/

/-- Errors of the focus command, per the spec's error model. -/
inductive FocusError where
  | unknownWorkspace : FocusError
  | noActiveWorkspace : FocusError
  | installFailure : Nat → FocusError
deriving DecidableEq

/-- Observable calls made by the driver to the external collaborators:
the install routine (with its `persistProject` flag) and install-state
persistence. -/
inductive Event where
  | installCall : Bool → Event
  | persistInstallState : Event
deriving DecidableEq

/-- Modelled from the spec: `Project.getWorkspaceByIdent` of
`@yarnpkg/core` is not under `src/`; per the spec it resolves a package
identity against the by-identity index and fails with `UnknownWorkspace`
when the name does not resolve. -/
def getWorkspaceByIdent (P : Project) (ident : IdentHash) :
    Except FocusError WsId :=
  match P.workspacesByIdent.find? (fun kv => kv.1 == ident) with
  | some kv => .ok kv.2
  | none => .error .unknownWorkspace

/-- Seed selection (focus.ts lines 48-60): the `--all` flag takes the
whole list; otherwise explicit names are resolved by identity; otherwise
the active workspace is used, failing when the working context is outside
every workspace. -/
def selectSeed (all : Bool) (names : List IdentHash)
    (activeWs : Option WsId) (P : Project) : Except FocusError (List WsId) :=
  if all then
    .ok (P.workspaces.map Workspace.wid)
  else if names.isEmpty then
    match activeWs with
    | none => .error .noActiveWorkspace
    | some w => .ok [w]
  else
    names.mapM (getWorkspaceByIdent P)

/-- The whole focus run (focus.ts `execute`): seed selection, closure,
eviction, then the install call with `persistProject` false followed on
success by exactly one install-state persistence.  The external install
routine is a parameter; the result is the final in-memory project, the
trace of external persistence-relevant calls, and the outcome. -/
def execute (all production : Bool) (names : List IdentHash)
    (activeWs : Option WsId) (install : Project → Bool → Except Nat Unit)
    (P : Project) : Project × List Event × Except FocusError Unit :=
  match selectSeed all names activeWs P with
  | .error e => (P, [], .error e)
  | .ok seed =>
    let required := computeRequired P seed
    let pruned := evict production required P
    match install pruned false with
    | .error e => (pruned, [Event.installCall false], .error (.installFailure e))
    | .ok _ =>
      (pruned, [Event.installCall false, Event.persistInstallState], .ok ())

/-! ## State-threaded closure pass (for the read-only property) -/

/-- State-threaded form of `processScope`: every read of the project
(`getForScope` values, `tryWorkspaceByDescriptor`) explicitly passes the
project state through. -/
def processScopeS (st : Project) (acc : List WsId) (descs : List Descriptor) :
    Project × List WsId :=
  descs.foldl (fun sa d =>
    match sa.1.resolve d with
    | none => sa
    | some t => (sa.1, addIfAbsent sa.2 t)) (st, acc)

/-- State-threaded form of `processWorkspace`. -/
def processWorkspaceS (st : Project) (acc : List WsId) (w : WsId) :
    Project × List WsId :=
  hardDependencies.foldl
    (fun sa dt => processScopeS sa.1 sa.2 ((manifestOf sa.1 w).getForScope dt))
    (st, acc)

/-- State-threaded form of the closure loop of focus.ts lines 68-79. -/
def closureAuxS (fuel : Nat) (st : Project) (acc : List WsId) (i : Nat) :
    Project × List WsId :=
  match fuel with
  | 0 => (st, acc)
  | fuel+1 =>
    if h : i < acc.length then
      let sa := processWorkspaceS st acc (acc.get ⟨i, h⟩)
      closureAuxS fuel sa.1 sa.2 (i+1)
    else (st, acc)

/-! ## Project well-formedness -/

/-- Invariants of a loaded project (§3 of the spec): object ids, paths
and identity hashes are unique; the two indexes mirror the ordered list;
the root workspace is present. -/
structure ProjectWF (P : Project) : Prop where
  widsNodup : (P.workspaces.map Workspace.wid).Nodup
  cwdsNodup : (P.workspaces.map Workspace.cwd).Nodup
  identsNodup : (P.workspaces.map Workspace.identHash).Nodup
  byCwdEq : P.workspacesByCwd = P.workspaces.map (fun w => (w.cwd, w.wid))
  byIdentEq :
    P.workspacesByIdent = P.workspaces.map (fun w => (w.identHash, w.wid))
  topMem : P.topLevel ∈ P.workspaces.map Workspace.wid

/-! ## Sample project used by the evaluation witnesses

Mirrors the spec's §8.7 scenario: workspaces `root` (id 0), `A` (id 1,
regular dependency on `B`, peer dependency on `C`), `B` (id 2), `C`
(id 3). -/

def sampleResolve (d : Descriptor) : Option WsId :=
  if d.ident ≤ 3 then some d.ident else none

def sampleP : Project :=
  { workspaces :=
      [⟨0, 0, 0, ⟨[], [], []⟩⟩,
       ⟨1, 1, 1, ⟨[⟨2, 0⟩], [], [⟨3, 0⟩]⟩⟩,
       ⟨2, 2, 2, ⟨[], [], []⟩⟩,
       ⟨3, 3, 3, ⟨[], [], []⟩⟩]
    workspacesByCwd := [(0, 0), (1, 1), (2, 2), (3, 3)]
    workspacesByIdent := [(0, 0), (1, 1), (2, 2), (3, 3)]
    topLevel := 0
    resolve := sampleResolve }

/-! ## Lemmas about the set primitives -/

theorem mem_addIfAbsent {acc : List WsId} {t x : WsId} :
    x ∈ addIfAbsent acc t ↔ x ∈ acc ∨ x = t := by
  unfold addIfAbsent
  split
  · constructor
    · exact Or.inl
    · rintro (hx | rfl) <;> assumption
  · simp

theorem addIfAbsent_append (acc : List WsId) (t : WsId) :
    ∃ l, addIfAbsent acc t = acc ++ l := by
  unfold addIfAbsent
  split
  · exact ⟨[], by simp⟩
  · exact ⟨[t], rfl⟩

theorem addIfAbsent_nodup {acc : List WsId} (h : acc.Nodup) (t : WsId) :
    (addIfAbsent acc t).Nodup := by
  unfold addIfAbsent
  split
  · exact h
  · rename_i ht
    simp [List.nodup_append, h, ht]

theorem addIfAbsent_length (acc : List WsId) (t : WsId) :
    (addIfAbsent acc t).length ≤ acc.length + 1 := by
  unfold addIfAbsent
  split
  · omega
  · simp

theorem mem_foldl_addIfAbsent (l : List WsId) (acc : List WsId) (x : WsId) :
    x ∈ l.foldl addIfAbsent acc ↔ x ∈ acc ∨ x ∈ l := by
  induction l generalizing acc with
  | nil => simp
  | cons a l ih =>
    simp only [List.foldl_cons, ih, mem_addIfAbsent, List.mem_cons]
    tauto

theorem mem_setOfList (l : List WsId) (x : WsId) :
    x ∈ setOfList l ↔ x ∈ l := by
  unfold setOfList
  simp [mem_foldl_addIfAbsent]

theorem setOfList_nodup (l : List WsId) : (setOfList l).Nodup := by
  unfold setOfList
  have h : ∀ acc : List WsId, acc.Nodup → (l.foldl addIfAbsent acc).Nodup := by
    induction l with
    | nil => intro acc h; exact h
    | cons a l ih =>
      intro acc h
      exact ih _ (addIfAbsent_nodup h a)
  exact h [] List.nodup_nil

theorem setOfList_length_le (l : List WsId) :
    (setOfList l).length ≤ l.length := by
  unfold setOfList
  have h : ∀ acc : List WsId,
      (l.foldl addIfAbsent acc).length ≤ acc.length + l.length := by
    induction l with
    | nil => intro acc; simp
    | cons a l ih =>
      intro acc
      calc ((a :: l).foldl addIfAbsent acc).length
          = (l.foldl addIfAbsent (addIfAbsent acc a)).length := rfl
        _ ≤ (addIfAbsent acc a).length + l.length := ih _
        _ ≤ acc.length + 1 + l.length := by
            have := addIfAbsent_length acc a
            omega
        _ = acc.length + (a :: l).length := by simp; omega
  simpa using h []

/-! ## Lemmas about one closure step -/

theorem mem_processScope (P : Project) (descs : List Descriptor)
    (acc : List WsId) (x : WsId) :
    x ∈ processScope P acc descs ↔
      x ∈ acc ∨ ∃ d ∈ descs, P.resolve d = some x := by
  induction descs generalizing acc with
  | nil => simp [processScope]
  | cons d descs ih =>
    simp only [processScope, List.foldl_cons] at ih ⊢
    cases hd : P.resolve d with
    | none =>
      rw [ih]
      simp only [List.mem_cons]
      constructor
      · rintro (hx | ⟨e, he, hr⟩)
        · exact Or.inl hx
        · exact Or.inr ⟨e, Or.inr he, hr⟩
      · rintro (hx | ⟨e, he | he, hr⟩)
        · exact Or.inl hx
        · subst he; rw [hd] at hr; cases hr
        · exact Or.inr ⟨e, he, hr⟩
    | some t =>
      rw [ih]
      simp only [mem_addIfAbsent, List.mem_cons]
      constructor
      · rintro ((hx | rfl) | ⟨e, he, hr⟩)
        · exact Or.inl hx
        · exact Or.inr ⟨d, Or.inl rfl, hd⟩
        · exact Or.inr ⟨e, Or.inr he, hr⟩
      · rintro (hx | ⟨e, he | he, hr⟩)
        · exact Or.inl (Or.inl hx)
        · subst he; rw [hd] at hr; cases hr; exact Or.inl (Or.inr rfl)
        · exact Or.inr ⟨e, he, hr⟩

theorem processScope_append (P : Project) (descs : List Descriptor)
    (acc : List WsId) :
    ∃ l, processScope P acc descs = acc ++ l := by
  induction descs generalizing acc with
  | nil => exact ⟨[], by simp [processScope]⟩
  | cons d descs ih =>
    simp only [processScope, List.foldl_cons] at ih ⊢
    cases hd : P.resolve d with
    | none => exact ih acc
    | some t =>
      obtain ⟨l₁, hl₁⟩ := addIfAbsent_append acc t
      obtain ⟨l₂, hl₂⟩ := ih (addIfAbsent acc t)
      exact ⟨l₁ ++ l₂, by rw [hl₂, hl₁, List.append_assoc]⟩

theorem processScope_nodup (P : Project) (descs : List Descriptor)
    {acc : List WsId} (h : acc.Nodup) :
    (processScope P acc descs).Nodup := by
  induction descs generalizing acc with
  | nil => exact h
  | cons d descs ih =>
    simp only [processScope, List.foldl_cons] at ih ⊢
    cases P.resolve d with
    | none => exact ih h
    | some t => exact ih (addIfAbsent_nodup h t)

theorem processWorkspace_eq (P : Project) (acc : List WsId) (w : WsId) :
    processWorkspace P acc w =
      processScope P (processScope P acc (manifestOf P w).dependencies)
        (manifestOf P w).devDependencies := rfl

theorem mem_hardTargets (P : Project) (w x : WsId) :
    x ∈ hardTargets P w ↔
      (∃ d ∈ (manifestOf P w).dependencies, P.resolve d = some x) ∨
        ∃ d ∈ (manifestOf P w).devDependencies, P.resolve d = some x := by
  unfold hardTargets
  simp [List.mem_filterMap]

theorem mem_processWorkspace (P : Project) (acc : List WsId) (w x : WsId) :
    x ∈ processWorkspace P acc w ↔ x ∈ acc ∨ x ∈ hardTargets P w := by
  rw [processWorkspace_eq, mem_processScope, mem_processScope,
    mem_hardTargets]
  exact or_assoc

theorem processWorkspace_append (P : Project) (acc : List WsId) (w : WsId) :
    ∃ l, processWorkspace P acc w = acc ++ l := by
  rw [processWorkspace_eq]
  obtain ⟨l₁, hl₁⟩ := processScope_append P (manifestOf P w).dependencies acc
  rw [hl₁]
  obtain ⟨l₂, hl₂⟩ :=
    processScope_append P (manifestOf P w).devDependencies (acc ++ l₁)
  exact ⟨l₁ ++ l₂, by rw [hl₂, List.append_assoc]⟩

theorem processWorkspace_nodup (P : Project) {acc : List WsId} (w : WsId)
    (h : acc.Nodup) : (processWorkspace P acc w).Nodup := by
  rw [processWorkspace_eq]
  exact processScope_nodup P _ (processScope_nodup P _ h)

theorem hardTargets_subset_processWorkspace (P : Project) (acc : List WsId)
    (w : WsId) : hardTargets P w ⊆ processWorkspace P acc w := by
  intro x hx
  exact (mem_processWorkspace P acc w x).2 (Or.inr hx)

theorem subset_processWorkspace (P : Project) (acc : List WsId) (w : WsId) :
    acc ⊆ processWorkspace P acc w := by
  intro x hx
  exact (mem_processWorkspace P acc w x).2 (Or.inl hx)

theorem hardTargets_of_not_mem (P : Project) (w : WsId)
    (h : w ∉ P.workspaces.map Workspace.wid) : hardTargets P w = [] := by
  have hf : P.workspaces.find? (fun u => u.wid == w) = none := by
    rw [List.find?_eq_none]
    intro u hu
    simp only [beq_iff_eq]
    intro he
    exact h (List.mem_map.2 ⟨u, hu, he⟩)
  unfold hardTargets manifestOf
  rw [hf]
  simp

theorem hardTargets_mem_wids (P : Project) (hres : ResolvesInProject P)
    (w : WsId) : ∀ t ∈ hardTargets P w, t ∈ P.workspaces.map Workspace.wid := by
  intro t ht
  by_cases hw : w ∈ P.workspaces.map Workspace.wid
  · obtain ⟨u, hu, he⟩ := List.mem_map.1 hw
    exact hres u hu t (by rw [he]; exact ht)
  · rw [hardTargets_of_not_mem P w hw] at ht
    cases ht

/-! ## Lemmas about the closure loop -/

theorem closureAux_append (P : Project) :
    ∀ (fuel : Nat) (acc : List WsId) (i : Nat),
      ∃ l, closureAux P fuel acc i = acc ++ l := by
  intro fuel
  induction fuel with
  | zero => intro acc i; exact ⟨[], by simp [closureAux]⟩
  | succ fuel ih =>
    intro acc i
    simp only [closureAux]
    split
    · rename_i h
      obtain ⟨l₁, hl₁⟩ := processWorkspace_append P acc (acc.get ⟨i, h⟩)
      obtain ⟨l₂, hl₂⟩ := ih (processWorkspace P acc (acc.get ⟨i, h⟩)) (i+1)
      exact ⟨l₁ ++ l₂, by rw [hl₂, hl₁, List.append_assoc]⟩
    · exact ⟨[], by simp⟩

theorem subset_closureAux (P : Project) (fuel : Nat) (acc : List WsId)
    (i : Nat) : acc ⊆ closureAux P fuel acc i := by
  obtain ⟨l, hl⟩ := closureAux_append P fuel acc i
  rw [hl]
  exact List.subset_append_left acc l

theorem closureAux_nodup (P : Project) :
    ∀ (fuel : Nat) {acc : List WsId} (i : Nat), acc.Nodup →
      (closureAux P fuel acc i).Nodup := by
  intro fuel
  induction fuel with
  | zero => intro acc i h; exact h
  | succ fuel ih =>
    intro acc i h
    simp only [closureAux]
    split
    · exact ih _ (processWorkspace_nodup P _ h)
    · exact h

theorem closureAux_stop (P : Project) (fuel : Nat) (acc : List WsId)
    (i : Nat) (h : acc.length ≤ i) : closureAux P fuel acc i = acc := by
  cases fuel with
  | zero => rfl
  | succ fuel =>
    simp only [closureAux]
    rw [dif_neg]
    omega

theorem closureAux_mem_of_carrier (P : Project) (L : List WsId)
    (hT : ∀ w, ∀ t ∈ hardTargets P w, t ∈ L) :
    ∀ (fuel : Nat) (acc : List WsId) (i : Nat), (∀ x ∈ acc, x ∈ L) →
      ∀ x ∈ closureAux P fuel acc i, x ∈ L := by
  intro fuel
  induction fuel with
  | zero => intro acc i h; exact h
  | succ fuel ih =>
    intro acc i h
    simp only [closureAux]
    split
    · rename_i hi
      refine ih _ (i+1) ?_
      intro x hx
      rcases (mem_processWorkspace P acc _ x).1 hx with hx | hx
      · exact h x hx
      · exact hT _ x hx
    · exact h

theorem closureAux_fuel (P : Project) (L : List WsId)
    (hT : ∀ w, ∀ t ∈ hardTargets P w, t ∈ L) :
    ∀ (fuel k : Nat) (acc : List WsId) (i : Nat), acc.Nodup →
      (∀ x ∈ acc, x ∈ L) → L.length + 1 ≤ i + fuel →
      closureAux P (fuel + k) acc i = closureAux P fuel acc i := by
  intro fuel
  induction fuel with
  | zero =>
    intro k acc i hnd hsub hb
    have hlen : acc.length ≤ L.length :=
      (hnd.subperm (fun x hx => hsub x hx)).length_le
    have hstop : acc.length ≤ i := by omega
    rw [closureAux_stop P _ acc i hstop, closureAux_stop P _ acc i hstop]
  | succ fuel ih =>
    intro k acc i hnd hsub hb
    have hstep : fuel + 1 + k = (fuel + k) + 1 := by omega
    rw [hstep]
    simp only [closureAux]
    split
    · rename_i hi
      refine ih k _ (i+1) (processWorkspace_nodup P _ hnd) ?_ (by omega)
      intro x hx
      rcases (mem_processWorkspace P acc _ x).1 hx with hx | hx
      · exact hsub x hx
      · exact hT _ x hx
    · rfl

theorem closureAux_closed (P : Project) (L : List WsId)
    (hT : ∀ w, ∀ t ∈ hardTargets P w, t ∈ L) :
    ∀ (fuel : Nat) (acc : List WsId) (i : Nat), acc.Nodup →
      (∀ x ∈ acc, x ∈ L) → L.length + 1 ≤ i + fuel →
      (∀ w ∈ acc.take i, ∀ t ∈ hardTargets P w, t ∈ acc) →
      ∀ w ∈ closureAux P fuel acc i, ∀ t ∈ hardTargets P w,
        t ∈ closureAux P fuel acc i := by
  intro fuel
  induction fuel with
  | zero =>
    intro acc i hnd hsub hb hproc
    have hlen : acc.length ≤ L.length :=
      (hnd.subperm (fun x hx => hsub x hx)).length_le
    have htake : acc.take i = acc := List.take_of_length_le (by omega)
    rw [htake] at hproc
    exact hproc
  | succ fuel ih =>
    intro acc i hnd hsub hb hproc
    simp only [closureAux]
    split
    · rename_i hi
      set w0 := acc.get ⟨i, hi⟩ with hw0
      set acc' := processWorkspace P acc w0 with hacc'
      refine ih acc' (i+1) (processWorkspace_nodup P _ hnd) ?_ (by omega) ?_
      · intro x hx
        rcases (mem_processWorkspace P acc w0 x).1 hx with hx | hx
        · exact hsub x hx
        · exact hT _ x hx
      · intro u hu t ht
        obtain ⟨l, hl⟩ := processWorkspace_append P acc w0
        have hto : acc'.take (i+1) = acc.take (i+1) := by
          rw [hacc', hl]
          exact List.take_append_of_le_length (by omega)
        rw [hto] at hu
        have hsucc : acc.take (i+1) = acc.take i ++ [w0] := by
          rw [hw0, List.take_succ, List.getElem?_eq_getElem hi]
          simp [List.get_eq_getElem]
        rw [hsucc] at hu
        rcases List.mem_append.1 hu with hu | hu
        · exact subset_processWorkspace P acc w0 (hproc u hu t ht)
        · have : u = w0 := by simpa using hu
          subst this
          exact hardTargets_subset_processWorkspace P acc w0 ht
    · rename_i hi
      have htake : acc.take i = acc := List.take_of_length_le (by omega)
      rw [htake] at hproc
      exact hproc

theorem closureAux_reach (P : Project) (R : WsId → Prop)
    (hR : ∀ u v, R u → hardEdge P u v → R v) :
    ∀ (fuel : Nat) (acc : List WsId) (i : Nat), (∀ x ∈ acc, R x) →
      ∀ x ∈ closureAux P fuel acc i, R x := by
  intro fuel
  induction fuel with
  | zero => intro acc i h; exact h
  | succ fuel ih =>
    intro acc i h
    simp only [closureAux]
    split
    · rename_i hi
      refine ih _ (i+1) ?_
      intro x hx
      rcases (mem_processWorkspace P acc _ x).1 hx with hx | hx
      · exact h x hx
      · exact hR _ x (h _ (acc.get_mem i hi)) hx
    · exact h

/-! ## Canonical-fuel corollaries for `computeRequired` -/

theorem computeRequired_carrier (P : Project) (seed : List WsId)
    (hres : ResolvesInProject P) :
    ∀ w, ∀ t ∈ hardTargets P w,
      t ∈ setOfList seed ++ P.workspaces.map Workspace.wid := by
  intro w t ht
  exact List.mem_append.2 (Or.inr (hardTargets_mem_wids P hres w t ht))

theorem computeRequired_len (P : Project) (seed : List WsId) :
    (setOfList seed ++ P.workspaces.map Workspace.wid).length + 1 =
      closureFuel P (setOfList seed) := by
  simp [closureFuel]

theorem computeRequired_closed_targets (P : Project) (seed : List WsId)
    (hres : ResolvesInProject P) :
    ∀ w ∈ computeRequired P seed, ∀ t ∈ hardTargets P w,
      t ∈ computeRequired P seed := by
  unfold computeRequired
  refine closureAux_closed P (setOfList seed ++ P.workspaces.map Workspace.wid)
    (computeRequired_carrier P seed hres) _ _ 0 (setOfList_nodup seed)
    ?_ ?_ ?_
  · intro x hx
    exact List.mem_append.2 (Or.inl hx)
  · rw [computeRequired_len]; omega
  · intro w hw
    simp at hw

theorem computeRequired_fuel_eq (P : Project) (seed : List WsId)
    (hres : ResolvesInProject P) (k : Nat) :
    closureAux P (closureFuel P (setOfList seed) + k) (setOfList seed) 0 =
      computeRequired P seed := by
  unfold computeRequired
  exact closureAux_fuel P (setOfList seed ++ P.workspaces.map Workspace.wid)
    (computeRequired_carrier P seed hres) _ k _ 0 (setOfList_nodup seed)
    (fun x hx => List.mem_append.2 (Or.inl hx))
    (by rw [computeRequired_len]; omega)

/-! ## Claim C1 -/

/-- C1: for every project and every non-empty seed set, the required set
computed by the closure loop is a superset of the seed and is closed
under hard-dependency edges: no required workspace has a descriptor in a
hard dependency scope (`dependencies` or `devDependencies`) that resolves
to an in-project workspace outside the required set. -/
theorem focus_closure_superset_closed (P : Project) (seed : List WsId)
    (hres : ResolvesInProject P) (_hne : seed ≠ []) :
    (∀ s ∈ seed, s ∈ computeRequired P seed) ∧
      ∀ w ∈ computeRequired P seed, ∀ dt ∈ hardDependencies,
        ∀ d ∈ (manifestOf P w).getForScope dt, ∀ t, P.resolve d = some t →
          t ∈ computeRequired P seed := by
  constructor
  · intro s hs
    exact subset_closureAux P _ _ 0 ((mem_setOfList seed s).2 hs)
  · intro w hw dt hdt d hd t ht
    refine computeRequired_closed_targets P seed hres w hw t ?_
    have hdt2 : dt = DepScope.dependencies ∨ dt = DepScope.devDependencies := by
      simpa [hardDependencies] using hdt
    rcases hdt2 with rfl | rfl
    · exact (mem_hardTargets P w t).2 (Or.inl ⟨d, hd, ht⟩)
    · exact (mem_hardTargets P w t).2 (Or.inr ⟨d, hd, ht⟩)

/-- Witness for C1 on the sample project: the required set of seed
`[A]` contains the seed and, concretely, the hard dependency `B` of `A`
is required. -/
theorem focus_closure_superset_closed_witness :
    1 ∈ computeRequired sampleP [1] ∧ 2 ∈ computeRequired sampleP [1] := by
  have h := focus_closure_superset_closed sampleP [1] (by decide) (by decide)
  refine ⟨h.1 1 (by decide), ?_⟩
  exact h.2 1 (h.1 1 (by decide)) DepScope.dependencies (by decide)
    ⟨2, 0⟩ (by decide) 2 (by decide)

/-! ## Claim C6 -/

/-- C6: peer-dependency edges never expand the closure: a workspace not
reachable from the seed through hard-dependency edges alone (in
particular one reachable only through `peerDependencies` descriptors) is
not added to the required set, even though the `peerDependencies` scope
is still cleared on eviction of any non-required workspace. -/
theorem focus_peer_edges_never_expand (P : Project) (seed : List WsId)
    (w : WsId)
    (hnr : ∀ s ∈ seed, ¬ Relation.ReflTransGen (hardEdge P) s w) :
    w ∉ computeRequired P seed ∧
      ∀ (production : Bool) (required : List WsId) (u : Workspace),
        u.wid ∉ required →
        (mutateWs production required u).manifest.peerDependencies = [] := by
  constructor
  · intro hw
    have hreach : ∀ x ∈ computeRequired P seed,
        ∃ s ∈ seed, Relation.ReflTransGen (hardEdge P) s x := by
      refine closureAux_reach P
        (fun x => ∃ s ∈ seed, Relation.ReflTransGen (hardEdge P) s x)
        ?_ _ _ 0 ?_
      · rintro u v ⟨s, hs, hr⟩ he
        exact ⟨s, hs, hr.tail he⟩
      · intro x hx
        exact ⟨x, (mem_setOfList seed x).1 hx, Relation.ReflTransGen.refl⟩
    obtain ⟨s, hs, hr⟩ := hreach w hw
    exact hnr s hs hr
  · intro production required u hu
    unfold mutateWs
    rw [if_neg hu]
    rfl

/-- Witness for C6 on the sample project: workspace `C` (id 3) is only
reachable from the seed `[A]` through a peer dependency, and it is not in
the required set. -/
theorem focus_peer_edges_never_expand_witness :
    3 ∉ computeRequired sampleP [1] := by
  have ht1 : hardTargets sampleP 1 = [2] := by decide
  have ht2 : hardTargets sampleP 2 = [] := by decide
  have h2 : ¬ Relation.ReflTransGen (hardEdge sampleP) 2 3 := by
    intro hrt
    rcases Relation.ReflTransGen.cases_head hrt with he | ⟨c, hc, hcr⟩
    · exact absurd he (by decide)
    · unfold hardEdge at hc
      rw [ht2] at hc
      cases hc
  have hnr : ∀ s ∈ [(1 : WsId)],
      ¬ Relation.ReflTransGen (hardEdge sampleP) s 3 := by
    intro s hs
    have hs1 : s = 1 := by simpa using hs
    subst hs1
    intro hrt
    rcases Relation.ReflTransGen.cases_head hrt with he | ⟨c, hc, hcr⟩
    · exact absurd he (by decide)
    · unfold hardEdge at hc
      rw [ht1] at hc
      have hc2 : c = 2 := by simpa using hc
      subst hc2
      exact h2 hcr
  exact (focus_peer_edges_never_expand sampleP [1] 3 hnr).1

/-! ## Claim C10 -/

/-- C10: the grow-while-iterating closure loop terminates for every
finite project: with the canonical fuel (one scan per possible member) it
has already reached its fixpoint — any extra fuel yields the same
required set — and no workspace is ever re-inserted (the required set is
duplicate-free). -/
theorem focus_closure_terminates (P : Project) (seed : List WsId)
    (hres : ResolvesInProject P) :
    (∀ k, closureAux P (closureFuel P (setOfList seed) + k)
        (setOfList seed) 0 = computeRequired P seed) ∧
      (computeRequired P seed).Nodup := by
  constructor
  · intro k
    exact computeRequired_fuel_eq P seed hres k
  · exact closureAux_nodup P _ 0 (setOfList_nodup seed)

/-- Witness for C10 on the sample project with seed `[A]` and five units
of extra fuel. -/
theorem focus_closure_terminates_witness :
    closureAux sampleP (closureFuel sampleP (setOfList [1]) + 5)
        (setOfList [1]) 0 = computeRequired sampleP [1] ∧
      (computeRequired sampleP [1]).Nodup := by
  have h := focus_closure_terminates sampleP [1] (by decide)
  exact ⟨h.1 5, h.2⟩

/-! ## Lemmas about the eviction passes -/

theorem mutateWs_wid (p : Bool) (r : List WsId) (w : Workspace) :
    (mutateWs p r w).wid = w.wid := by
  unfold mutateWs
  split
  · split <;> rfl
  · rfl

theorem mutateWs_cwd (p : Bool) (r : List WsId) (w : Workspace) :
    (mutateWs p r w).cwd = w.cwd := by
  unfold mutateWs
  split
  · split <;> rfl
  · rfl

theorem mutateWs_identHash (p : Bool) (r : List WsId) (w : Workspace) :
    (mutateWs p r w).identHash = w.identHash := by
  unfold mutateWs
  split
  · split <;> rfl
  · rfl

theorem mutateWs_idem (p : Bool) (r : List WsId) (w : Workspace) :
    mutateWs p r (mutateWs p r w) = mutateWs p r w := by
  by_cases hm : w.wid ∈ r
  · cases p with
    | false => simp [mutateWs, hm]
    | true => simp [mutateWs, hm, clearDev]
  · simp [mutateWs, hm, clearAllScopes]

theorem mutatedList_wids (p : Bool) (r : List WsId) (P : Project) :
    (mutatedList p r P).map Workspace.wid = P.workspaces.map Workspace.wid := by
  unfold mutatedList
  rw [List.map_map]
  exact List.map_congr_left fun w _ => mutateWs_wid p r w

theorem mutatedList_cwds (p : Bool) (r : List WsId) (P : Project) :
    (mutatedList p r P).map Workspace.cwd = P.workspaces.map Workspace.cwd := by
  unfold mutatedList
  rw [List.map_map]
  exact List.map_congr_left fun w _ => mutateWs_cwd p r w

theorem mutatedList_idents (p : Bool) (r : List WsId) (P : Project) :
    (mutatedList p r P).map Workspace.identHash =
      P.workspaces.map Workspace.identHash := by
  unfold mutatedList
  rw [List.map_map]
  exact List.map_congr_left fun w _ => mutateWs_identHash p r w

theorem mem_mutatedList {p : Bool} {r : List WsId} {P : Project}
    {x : Workspace} :
    x ∈ mutatedList p r P ↔ ∃ u ∈ P.workspaces, mutateWs p r u = x := by
  unfold mutatedList
  simp [List.mem_map]

theorem mem_evictionList {r : List WsId} {top : WsId} {l : List Workspace}
    {x : Workspace} :
    x ∈ evictionList r top l ↔ x ∈ l ∧ x.wid ∉ r ∧ x.wid ≠ top := by
  unfold evictionList
  simp [List.mem_filter]

theorem mem_eraseP_of_pred_false {α : Type} {l : List α} {w : α}
    {p : α → Bool} (hw : w ∈ l) (hp : p w = false) : w ∈ l.eraseP p := by
  induction l with
  | nil => cases hw
  | cons a l ih =>
    rw [List.eraseP_cons]
    cases ha : p a with
    | true =>
      simp only [cond_true]
      rcases List.mem_cons.1 hw with rfl | hw
      · rw [hp] at ha; cases ha
      · exact hw
    | false =>
      simp only [cond_false]
      rcases List.mem_cons.1 hw with rfl | hw
      · exact List.mem_cons_self _ _
      · exact List.mem_cons_of_mem _ (ih hw)

theorem eraseP_wid_eq_filter (l : List Workspace) (x : WsId)
    (h : (l.map Workspace.wid).Nodup) :
    l.eraseP (fun w => w.wid == x) = l.filter (fun w => w.wid != x) := by
  induction l with
  | nil => rfl
  | cons a l ih =>
    simp only [List.map_cons, List.nodup_cons, List.mem_map] at h
    rw [List.eraseP_cons, List.filter_cons]
    by_cases ha : a.wid = x
    · simp only [ha, beq_self_eq_true, cond_true, bne_self_eq_false,
        Bool.false_eq_true, if_false]
      symm
      rw [List.filter_eq_self]
      intro b hb
      simp only [bne_iff_ne, ne_eq]
      intro hbx
      exact h.1 ⟨b, hb, by rw [hbx, ha]⟩
    · have hba : (a.wid == x) = false := by simpa using ha
      have hbn : (a.wid != x) = true := by simpa using ha
      simp only [hba, cond_false, hbn, if_true]
      rw [ih h.2]

theorem mem_foldl_removeOne {w : Workspace} :
    ∀ (E : List Workspace) (Q : Project), w ∈ Q.workspaces →
      (∀ e ∈ E, w.wid ≠ e.wid) → w ∈ (E.foldl removeOne Q).workspaces := by
  intro E
  induction E with
  | nil => intro Q hw _; exact hw
  | cons e E ih =>
    intro Q hw hne
    rw [List.foldl_cons]
    refine ih (removeOne Q e) ?_ (fun d hd => hne d (List.mem_cons_of_mem e hd))
    show w ∈ Q.workspaces.eraseP (fun u => u.wid == e.wid)
    refine mem_eraseP_of_pred_false hw ?_
    simpa using hne e (List.mem_cons_self e E)

theorem foldl_removeOne_char :
    ∀ (E : List Workspace) (Q : Project),
      (Q.workspaces.map Workspace.wid).Nodup →
      (E.foldl removeOne Q).workspaces =
          Q.workspaces.filter
            (fun w => !((E.map Workspace.wid).contains w.wid)) ∧
        (E.foldl removeOne Q).workspacesByCwd =
          Q.workspacesByCwd.filter
            (fun kv => !((E.map Workspace.cwd).contains kv.1)) ∧
        (E.foldl removeOne Q).workspacesByIdent =
          Q.workspacesByIdent.filter
            (fun kv => !((E.map Workspace.identHash).contains kv.1)) ∧
        (E.foldl removeOne Q).topLevel = Q.topLevel := by
  intro E
  induction E with
  | nil =>
    intro Q h
    simp only [List.foldl_nil, List.map_nil]
    refine ⟨?_, ?_, ?_, trivial⟩ <;>
      · symm
        rw [List.filter_eq_self]
        intro a _
        simp
  | cons e E ih =>
    intro Q h
    rw [List.foldl_cons]
    have hws : (removeOne Q e).workspaces =
        Q.workspaces.filter (fun w => w.wid != e.wid) := by
      show Q.workspaces.eraseP (fun w => w.wid == e.wid) = _
      exact eraseP_wid_eq_filter _ _ h
    have hnd : ((removeOne Q e).workspaces.map Workspace.wid).Nodup := by
      rw [hws]
      exact ((List.filter_sublist Q.workspaces).map Workspace.wid).nodup h
    obtain ⟨h1, h2, h3, h4⟩ := ih (removeOne Q e) hnd
    refine ⟨?_, ?_, ?_, ?_⟩
    · rw [h1, hws, List.filter_filter]
      refine List.filter_congr ?_
      intro a _
      simp only [List.map_cons, List.contains_cons, Bool.not_or]
      rw [Bool.and_comm]
      rfl
    · rw [h2]
      show (Q.workspacesByCwd.filter (fun kv => kv.1 != e.cwd)).filter _ = _
      rw [List.filter_filter]
      refine List.filter_congr ?_
      intro a _
      simp only [List.map_cons, List.contains_cons, Bool.not_or]
      rw [Bool.and_comm]
      rfl
    · rw [h3]
      show (Q.workspacesByIdent.filter (fun kv => kv.1 != e.identHash)).filter
          _ = _
      rw [List.filter_filter]
      refine List.filter_congr ?_
      intro a _
      simp only [List.map_cons, List.contains_cons, Bool.not_or]
      rw [Bool.and_comm]
      rfl
    · rw [h4]
      rfl

theorem evictedWs_wids_nodup_aux (p : Bool) (r : List WsId) (P : Project)
    (hw : (P.workspaces.map Workspace.wid).Nodup) :
    ((mutatedList p r P).map Workspace.wid).Nodup := by
  rw [mutatedList_wids]
  exact hw

theorem evict_char (p : Bool) (r : List WsId) (P : Project)
    (hw : (P.workspaces.map Workspace.wid).Nodup) :
    (evict p r P).workspaces =
        (mutatedList p r P).filter
          (fun w => !(((evictedWs p r P).map Workspace.wid).contains w.wid)) ∧
      (evict p r P).workspacesByCwd =
        P.workspacesByCwd.filter
          (fun kv => !(((evictedWs p r P).map Workspace.cwd).contains kv.1)) ∧
      (evict p r P).workspacesByIdent =
        P.workspacesByIdent.filter
          (fun kv =>
            !(((evictedWs p r P).map Workspace.identHash).contains kv.1)) ∧
      (evict p r P).topLevel = P.topLevel := by
  unfold evict
  exact foldl_removeOne_char (evictedWs p r P)
    { P with workspaces := mutatedList p r P }
    (evictedWs_wids_nodup_aux p r P hw)

theorem mem_evictedWs {p : Bool} {r : List WsId} {P : Project}
    {e : Workspace} :
    e ∈ evictedWs p r P ↔
      (∃ u ∈ P.workspaces, mutateWs p r u = e) ∧ e.wid ∉ r ∧
        e.wid ≠ P.topLevel := by
  unfold evictedWs
  rw [mem_evictionList, mem_mutatedList]

theorem mutateWs_not_required (p : Bool) (r : List WsId) (w : Workspace)
    (h : w.wid ∉ r) : (mutateWs p r w).manifest = ⟨[], [], []⟩ := by
  unfold mutateWs
  rw [if_neg h]
  rfl

theorem evicted_wid_iff (p : Bool) (r : List WsId) (P : Project)
    (w : Workspace) (hw : w ∈ P.workspaces) :
    w.wid ∈ (evictedWs p r P).map Workspace.wid ↔
      w.wid ∉ r ∧ w.wid ≠ P.topLevel := by
  constructor
  · intro h
    obtain ⟨e, he, hew⟩ := List.mem_map.1 h
    obtain ⟨_, hnr, hnt⟩ := mem_evictedWs.1 he
    rw [← hew]
    exact ⟨hnr, hnt⟩
  · rintro ⟨hnr, hnt⟩
    refine List.mem_map.2 ⟨mutateWs p r w, ?_, mutateWs_wid p r w⟩
    refine mem_evictedWs.2 ⟨⟨w, hw, rfl⟩, ?_, ?_⟩ <;>
      rw [mutateWs_wid] <;> assumption

theorem evicted_cwd_iff (p : Bool) (r : List WsId) (P : Project)
    (hc : (P.workspaces.map Workspace.cwd).Nodup) (w : Workspace)
    (hw : w ∈ P.workspaces) :
    w.cwd ∈ (evictedWs p r P).map Workspace.cwd ↔
      w.wid ∉ r ∧ w.wid ≠ P.topLevel := by
  constructor
  · intro h
    obtain ⟨e, he, hew⟩ := List.mem_map.1 h
    obtain ⟨⟨u, hu, hue⟩, hnr, hnt⟩ := mem_evictedWs.1 he
    have hcw : u.cwd = w.cwd := by
      rw [← hew, ← hue, mutateWs_cwd]
    have huw : u = w := List.inj_on_of_nodup_map hc hu hw hcw
    have hwid : e.wid = w.wid := by
      rw [← hue, mutateWs_wid, huw]
    rw [← hwid]
    exact ⟨hnr, hnt⟩
  · rintro ⟨hnr, hnt⟩
    refine List.mem_map.2 ⟨mutateWs p r w, ?_, mutateWs_cwd p r w⟩
    refine mem_evictedWs.2 ⟨⟨w, hw, rfl⟩, ?_, ?_⟩ <;>
      rw [mutateWs_wid] <;> assumption

theorem evicted_identHash_iff (p : Bool) (r : List WsId) (P : Project)
    (hi : (P.workspaces.map Workspace.identHash).Nodup) (w : Workspace)
    (hw : w ∈ P.workspaces) :
    w.identHash ∈ (evictedWs p r P).map Workspace.identHash ↔
      w.wid ∉ r ∧ w.wid ≠ P.topLevel := by
  constructor
  · intro h
    obtain ⟨e, he, hew⟩ := List.mem_map.1 h
    obtain ⟨⟨u, hu, hue⟩, hnr, hnt⟩ := mem_evictedWs.1 he
    have hcw : u.identHash = w.identHash := by
      rw [← hew, ← hue, mutateWs_identHash]
    have huw : u = w := List.inj_on_of_nodup_map hi hu hw hcw
    have hwid : e.wid = w.wid := by
      rw [← hue, mutateWs_wid, huw]
    rw [← hwid]
    exact ⟨hnr, hnt⟩
  · rintro ⟨hnr, hnt⟩
    refine List.mem_map.2 ⟨mutateWs p r w, ?_, mutateWs_identHash p r w⟩
    refine mem_evictedWs.2 ⟨⟨w, hw, rfl⟩, ?_, ?_⟩ <;>
      rw [mutateWs_wid] <;> assumption

/-! ## Claim C3 -/

/-- C3: after eviction, every required workspace keeps its
`dependencies` and `peerDependencies` scopes exactly as before, and its
`devDependencies` scope is emptied exactly when production mode is on,
otherwise kept as before. -/
theorem focus_required_scopes_preserved (production : Bool)
    (required : List WsId) (P : Project) :
    ∀ w ∈ P.workspaces, w.wid ∈ required →
      ∃ w' ∈ (evict production required P).workspaces,
        w'.wid = w.wid ∧
          w'.manifest.dependencies = w.manifest.dependencies ∧
          w'.manifest.peerDependencies = w.manifest.peerDependencies ∧
          w'.manifest.devDependencies =
            (if production then [] else w.manifest.devDependencies) := by
  intro w hw hreq
  refine ⟨mutateWs production required w, ?_, mutateWs_wid production required w,
    ?_, ?_, ?_⟩
  · unfold evict
    refine mem_foldl_removeOne (evictedWs production required P) _ ?_ ?_
    · show mutateWs production required w ∈ mutatedList production required P
      exact mem_mutatedList.2 ⟨w, hw, rfl⟩
    · intro e he
      obtain ⟨_, hnr, _⟩ := mem_evictedWs.1 he
      rw [mutateWs_wid]
      intro hew
      exact hnr (hew ▸ hreq)
  · unfold mutateWs
    rw [if_pos hreq]
    cases production <;> rfl
  · unfold mutateWs
    rw [if_pos hreq]
    cases production <;> rfl
  · unfold mutateWs
    rw [if_pos hreq]
    cases production <;> rfl

/-- Witness for C3 on the sample project with production mode on: the
required workspace `A` keeps its regular and peer dependencies and loses
its dev dependencies. -/
theorem focus_required_scopes_preserved_witness :
    ∃ w' ∈ (evict true [1, 2] sampleP).workspaces,
      w'.wid = 1 ∧
        w'.manifest.dependencies = [⟨2, 0⟩] ∧
          w'.manifest.peerDependencies = [⟨3, 0⟩] ∧
          w'.manifest.devDependencies = (if true then [] else []) := by
  have h := focus_required_scopes_preserved true [1, 2] sampleP
    ⟨1, 1, 1, ⟨[⟨2, 0⟩], [], [⟨3, 0⟩]⟩⟩ (by decide) (by decide)
  exact h

theorem contains_eq_false_iff {α : Type} [BEq α] [LawfulBEq α] {l : List α}
    {x : α} : l.contains x = false ↔ x ∉ l := by
  simp

/-! ## Claim C2 -/

/-- C2: after eviction, every non-required, non-root workspace has all
three dependency scopes empty and is absent from the ordered list and
from both indexes; and after the removal pass the ordered list and both
indexes are mutually consistent (a workspace id is in the list iff it is
in the by-path index iff it is in the by-identity index). -/
theorem focus_eviction_removes (production : Bool) (required : List WsId)
    (P : Project) (hwf : ProjectWF P) :
    (∀ w ∈ P.workspaces, w.wid ∉ required → w.wid ≠ P.topLevel →
      (mutateWs production required w).manifest.dependencies = [] ∧
        (mutateWs production required w).manifest.devDependencies = [] ∧
        (mutateWs production required w).manifest.peerDependencies = [] ∧
        w.wid ∉ (evict production required P).workspaces.map Workspace.wid ∧
        (∀ c, (c, w.wid) ∉ (evict production required P).workspacesByCwd) ∧
        ∀ ih, (ih, w.wid) ∉
          (evict production required P).workspacesByIdent) ∧
      ∀ n : WsId,
        ((∃ w' ∈ (evict production required P).workspaces, w'.wid = n) ↔
            ∃ c, (c, n) ∈ (evict production required P).workspacesByCwd) ∧
          ((∃ w' ∈ (evict production required P).workspaces, w'.wid = n) ↔
            ∃ ih, (ih, n) ∈ (evict production required P).workspacesByIdent) := by
  obtain ⟨hchar1, hchar2, hchar3, _⟩ :=
    evict_char production required P hwf.widsNodup
  have hA : ∀ n : WsId,
      (∃ w' ∈ (evict production required P).workspaces, w'.wid = n) ↔
        ∃ u ∈ P.workspaces, u.wid = n ∧
          ¬(u.wid ∉ required ∧ u.wid ≠ P.topLevel) := by
    intro n
    constructor
    · rintro ⟨w', hw', hn⟩
      rw [hchar1] at hw'
      obtain ⟨hm, hpred⟩ := List.mem_filter.1 hw'
      simp only [Bool.not_eq_eq_eq_not, Bool.not_true] at hpred
      rw [contains_eq_false_iff] at hpred
      obtain ⟨u, hu, hue⟩ := mem_mutatedList.1 hm
      have huw : u.wid = w'.wid := by rw [← hue, mutateWs_wid]
      refine ⟨u, hu, by rw [huw, hn], ?_⟩
      intro hcond
      have hmem := (evicted_wid_iff production required P u hu).2 hcond
      rw [huw] at hmem
      exact hpred hmem
    · rintro ⟨u, hu, hn, hcond⟩
      refine ⟨mutateWs production required u, ?_,
        by rw [mutateWs_wid, hn]⟩
      rw [hchar1]
      refine List.mem_filter.2 ⟨mem_mutatedList.2 ⟨u, hu, rfl⟩, ?_⟩
      simp only [Bool.not_eq_eq_eq_not, Bool.not_true, mutateWs_wid]
      rw [contains_eq_false_iff]
      intro hmem
      exact hcond ((evicted_wid_iff production required P u hu).1 hmem)
  have hB : ∀ n : WsId,
      (∃ c, (c, n) ∈ (evict production required P).workspacesByCwd) ↔
        ∃ u ∈ P.workspaces, u.wid = n ∧
          ¬(u.wid ∉ required ∧ u.wid ≠ P.topLevel) := by
    intro n
    constructor
    · rintro ⟨c, hc⟩
      rw [hchar2] at hc
      obtain ⟨hm, hpred⟩ := List.mem_filter.1 hc
      simp only [Bool.not_eq_eq_eq_not, Bool.not_true] at hpred
      rw [contains_eq_false_iff] at hpred
      rw [hwf.byCwdEq] at hm
      obtain ⟨u, hu, hue⟩ := List.mem_map.1 hm
      have huc : u.cwd = c := congrArg Prod.fst hue
      have hun : u.wid = n := congrArg Prod.snd hue
      refine ⟨u, hu, hun, ?_⟩
      intro hcond
      have hmem :=
        (evicted_cwd_iff production required P hwf.cwdsNodup u hu).2 hcond
      rw [huc] at hmem
      exact hpred hmem
    · rintro ⟨u, hu, hn, hcond⟩
      refine ⟨u.cwd, ?_⟩
      rw [hchar2]
      refine List.mem_filter.2 ⟨?_, ?_⟩
      · rw [hwf.byCwdEq]
        exact List.mem_map.2 ⟨u, hu, by rw [hn]⟩
      · simp only [Bool.not_eq_eq_eq_not, Bool.not_true]
        rw [contains_eq_false_iff]
        intro hmem
        exact hcond
          ((evicted_cwd_iff production required P hwf.cwdsNodup u hu).1 hmem)
  have hI : ∀ n : WsId,
      (∃ ih, (ih, n) ∈ (evict production required P).workspacesByIdent) ↔
        ∃ u ∈ P.workspaces, u.wid = n ∧
          ¬(u.wid ∉ required ∧ u.wid ≠ P.topLevel) := by
    intro n
    constructor
    · rintro ⟨c, hc⟩
      rw [hchar3] at hc
      obtain ⟨hm, hpred⟩ := List.mem_filter.1 hc
      simp only [Bool.not_eq_eq_eq_not, Bool.not_true] at hpred
      rw [contains_eq_false_iff] at hpred
      rw [hwf.byIdentEq] at hm
      obtain ⟨u, hu, hue⟩ := List.mem_map.1 hm
      have huc : u.identHash = c := congrArg Prod.fst hue
      have hun : u.wid = n := congrArg Prod.snd hue
      refine ⟨u, hu, hun, ?_⟩
      intro hcond
      have hmem :=
        (evicted_identHash_iff production required P hwf.identsNodup u hu).2
          hcond
      rw [huc] at hmem
      exact hpred hmem
    · rintro ⟨u, hu, hn, hcond⟩
      refine ⟨u.identHash, ?_⟩
      rw [hchar3]
      refine List.mem_filter.2 ⟨?_, ?_⟩
      · rw [hwf.byIdentEq]
        exact List.mem_map.2 ⟨u, hu, by rw [hn]⟩
      · simp only [Bool.not_eq_eq_eq_not, Bool.not_true]
        rw [contains_eq_false_iff]
        intro hmem
        exact hcond
          ((evicted_identHash_iff production required P hwf.identsNodup u
            hu).1 hmem)
  constructor
  · intro w hw hnr hnt
    have hm := mutateWs_not_required production required w hnr
    refine ⟨by rw [hm], by rw [hm], by rw [hm], ?_, ?_, ?_⟩
    · intro hmem
      obtain ⟨w', hw', he⟩ := List.mem_map.1 hmem
      rw [hchar1] at hw'
      obtain ⟨_, hpred⟩ := List.mem_filter.1 hw'
      simp only [Bool.not_eq_eq_eq_not, Bool.not_true] at hpred
      rw [contains_eq_false_iff] at hpred
      rw [he] at hpred
      exact hpred ((evicted_wid_iff production required P w hw).2 ⟨hnr, hnt⟩)
    · intro c hc
      rw [hchar2] at hc
      obtain ⟨hmem, hpred⟩ := List.mem_filter.1 hc
      simp only [Bool.not_eq_eq_eq_not, Bool.not_true] at hpred
      rw [contains_eq_false_iff] at hpred
      rw [hwf.byCwdEq] at hmem
      obtain ⟨u, hu, hue⟩ := List.mem_map.1 hmem
      have huc : u.cwd = c := congrArg Prod.fst hue
      have hun : u.wid = w.wid := congrArg Prod.snd hue
      have huw : u = w := List.inj_on_of_nodup_map hwf.widsNodup hu hw hun
      rw [← huc, huw] at hpred
      exact hpred
        ((evicted_cwd_iff production required P hwf.cwdsNodup w hw).2
          ⟨hnr, hnt⟩)
    · intro c hc
      rw [hchar3] at hc
      obtain ⟨hmem, hpred⟩ := List.mem_filter.1 hc
      simp only [Bool.not_eq_eq_eq_not, Bool.not_true] at hpred
      rw [contains_eq_false_iff] at hpred
      rw [hwf.byIdentEq] at hmem
      obtain ⟨u, hu, hue⟩ := List.mem_map.1 hmem
      have huc : u.identHash = c := congrArg Prod.fst hue
      have hun : u.wid = w.wid := congrArg Prod.snd hue
      have huw : u = w := List.inj_on_of_nodup_map hwf.widsNodup hu hw hun
      rw [← huc, huw] at hpred
      exact hpred
        ((evicted_identHash_iff production required P hwf.identsNodup w hw).2
          ⟨hnr, hnt⟩)
  · intro n
    exact ⟨(hA n).trans (hB n).symm, (hA n).trans (hI n).symm⟩

/-- Witness for C2 on the sample project with seed closure `[A, B]`: the
evicted workspace `C` (id 3) has empty scopes after the manifest pass and
is gone from the list and from both indexes. -/
theorem focus_eviction_removes_witness :
    (mutateWs false [1, 2] ⟨3, 3, 3, ⟨[], [], []⟩⟩).manifest.dependencies
        = [] ∧
      3 ∉ (evict false [1, 2] sampleP).workspaces.map Workspace.wid ∧
      ((∃ w' ∈ (evict false [1, 2] sampleP).workspaces, w'.wid = 2) ↔
        ∃ c, (c, 2) ∈ (evict false [1, 2] sampleP).workspacesByCwd) := by
  have h := focus_eviction_removes false [1, 2] sampleP
    ⟨by decide, by decide, by decide, by decide, by decide, by decide⟩
  obtain ⟨h1, h2, h3, h4, h5, h6⟩ :=
    h.1 ⟨3, 3, 3, ⟨[], [], []⟩⟩ (by decide) (by decide) (by decide)
  exact ⟨h1, h4, (h.2 2).1⟩

/-! ## Claim C5 -/

/-- C5: the root (top-level) workspace is present in the ordered list and
in both indexes after eviction; when it is not required, its three
dependency scopes are cleared like any evicted workspace's, but it is
never structurally removed. -/
theorem focus_root_retained (production : Bool) (required : List WsId)
    (P : Project) (hwf : ProjectWF P) :
    ∃ w' ∈ (evict production required P).workspaces,
      w'.wid = P.topLevel ∧
        (w'.cwd, w'.wid) ∈ (evict production required P).workspacesByCwd ∧
        (w'.identHash, w'.wid) ∈
          (evict production required P).workspacesByIdent ∧
        (P.topLevel ∉ required → w'.manifest = ⟨[], [], []⟩) := by
  obtain ⟨hchar1, hchar2, hchar3, _⟩ :=
    evict_char production required P hwf.widsNodup
  obtain ⟨wt, hwt, hwtid⟩ := List.mem_map.1 hwf.topMem
  have hnot : ¬(wt.wid ∉ required ∧ wt.wid ≠ P.topLevel) := by
    rintro ⟨_, hne⟩
    exact hne hwtid
  refine ⟨mutateWs production required wt, ?_, ?_, ?_, ?_, ?_⟩
  · rw [hchar1]
    refine List.mem_filter.2 ⟨mem_mutatedList.2 ⟨wt, hwt, rfl⟩, ?_⟩
    simp only [Bool.not_eq_eq_eq_not, Bool.not_true, mutateWs_wid]
    rw [contains_eq_false_iff]
    intro hmem
    exact hnot ((evicted_wid_iff production required P wt hwt).1 hmem)
  · rw [mutateWs_wid]
    exact hwtid
  · rw [hchar2, mutateWs_wid, mutateWs_cwd]
    refine List.mem_filter.2 ⟨?_, ?_⟩
    · rw [hwf.byCwdEq]
      exact List.mem_map.2 ⟨wt, hwt, rfl⟩
    · simp only [Bool.not_eq_eq_eq_not, Bool.not_true]
      rw [contains_eq_false_iff]
      intro hmem
      exact hnot
        ((evicted_cwd_iff production required P hwf.cwdsNodup wt hwt).1 hmem)
  · rw [hchar3, mutateWs_wid, mutateWs_identHash]
    refine List.mem_filter.2 ⟨?_, ?_⟩
    · rw [hwf.byIdentEq]
      exact List.mem_map.2 ⟨wt, hwt, rfl⟩
    · simp only [Bool.not_eq_eq_eq_not, Bool.not_true]
      rw [contains_eq_false_iff]
      intro hmem
      exact hnot
        ((evicted_identHash_iff production required P hwf.identsNodup wt
          hwt).1 hmem)
  · intro htop
    refine mutateWs_not_required production required wt ?_
    rw [hwtid]
    exact htop

/-- Witness for C5 on the sample project with a required set that does
not contain the root: the root workspace (id 0) survives in the list and
both indexes with cleared scopes. -/
theorem focus_root_retained_witness :
    ∃ w' ∈ (evict false [1, 2] sampleP).workspaces,
      w'.wid = sampleP.topLevel ∧
        (w'.cwd, w'.wid) ∈ (evict false [1, 2] sampleP).workspacesByCwd ∧
        (w'.identHash, w'.wid) ∈
          (evict false [1, 2] sampleP).workspacesByIdent ∧
        (sampleP.topLevel ∉ [1, 2] → w'.manifest = ⟨[], [], []⟩) :=
  focus_root_retained false [1, 2] sampleP
    ⟨by decide, by decide, by decide, by decide, by decide, by decide⟩

/-! ## Claim C8 -/

/-- C8: eviction is idempotent: running the manifest-mutation pass and
the removal pass a second time with the same required set changes
neither the ordered list (and with it every manifest scope) nor the two
indexes. -/
theorem focus_eviction_idempotent (production : Bool) (required : List WsId)
    (P : Project) (hw : (P.workspaces.map Workspace.wid).Nodup) :
    (evict production required (evict production required P)).workspaces =
        (evict production required P).workspaces ∧
      (evict production required
          (evict production required P)).workspacesByCwd =
        (evict production required P).workspacesByCwd ∧
      (evict production required
          (evict production required P)).workspacesByIdent =
        (evict production required P).workspacesByIdent := by
  obtain ⟨hchar1, _, _, htop⟩ := evict_char production required P hw
  have hfix : ∀ w' ∈ (evict production required P).workspaces,
      mutateWs production required w' = w' := by
    intro w' hw'
    rw [hchar1] at hw'
    obtain ⟨hm, _⟩ := List.mem_filter.1 hw'
    obtain ⟨u, _, hue⟩ := mem_mutatedList.1 hm
    rw [← hue]
    exact mutateWs_idem production required u
  have hmut : mutatedList production required (evict production required P) =
      (evict production required P).workspaces := by
    unfold mutatedList
    rw [List.map_congr_left hfix]
    exact List.map_id _
  have hnil : ∀ Q : Project, evictedWs production required Q = [] →
      (evict production required Q).workspaces =
          mutatedList production required Q ∧
        (evict production required Q).workspacesByCwd =
          Q.workspacesByCwd ∧
        (evict production required Q).workspacesByIdent =
          Q.workspacesByIdent := by
    intro Q h
    unfold evict
    rw [h, List.foldl_nil]
    exact ⟨rfl, rfl, rfl⟩
  have hev : evictedWs production required (evict production required P)
      = [] := by
    unfold evictedWs
    rw [hmut]
    unfold evictionList
    rw [List.filter_eq_nil_iff]
    intro w' hw'
    simp only [decide_eq_true_eq, not_and, not_not, ne_eq, Decidable.not_not]
    intro hnr
    by_contra hne
    have hwid : w'.wid ∈
        ((evictedWs production required P).map Workspace.wid) := by
      rw [hchar1] at hw'
      obtain ⟨hm, _⟩ := List.mem_filter.1 hw'
      refine List.mem_map.2 ⟨w', ?_, rfl⟩
      rw [htop] at hne
      exact mem_evictionList.2 ⟨hm, hnr, hne⟩
    rw [hchar1] at hw'
    obtain ⟨_, hpred⟩ := List.mem_filter.1 hw'
    simp only [Bool.not_eq_eq_eq_not, Bool.not_true] at hpred
    rw [contains_eq_false_iff] at hpred
    exact hpred hwid
  obtain ⟨e1, e2, e3⟩ := hnil (evict production required P) hev
  exact ⟨e1.trans hmut, e2, e3⟩

/-- Witness for C8 on the sample project. -/
theorem focus_eviction_idempotent_witness :
    (evict false [1, 2] (evict false [1, 2] sampleP)).workspaces =
        (evict false [1, 2] sampleP).workspaces ∧
      (evict false [1, 2] (evict false [1, 2] sampleP)).workspacesByCwd =
        (evict false [1, 2] sampleP).workspacesByCwd ∧
      (evict false [1, 2] (evict false [1, 2] sampleP)).workspacesByIdent =
        (evict false [1, 2] sampleP).workspacesByIdent :=
  focus_eviction_idempotent false [1, 2] sampleP (by decide)

/-! ## Claim C9 -/

theorem processScopeS_eq (st : Project) (descs : List Descriptor) :
    ∀ acc : List WsId,
      processScopeS st acc descs = (st, processScope st acc descs) := by
  induction descs with
  | nil => intro acc; rfl
  | cons d descs ih =>
    intro acc
    simp only [processScopeS, processScope, List.foldl_cons] at ih ⊢
    cases st.resolve d <;> exact ih _

theorem processWorkspaceS_eq (st : Project) (acc : List WsId) (w : WsId) :
    processWorkspaceS st acc w = (st, processWorkspace st acc w) := by
  unfold processWorkspaceS processWorkspace hardDependencies
  simp only [List.foldl_cons, List.foldl_nil, processScopeS_eq]

theorem closureAuxS_eq :
    ∀ (fuel : Nat) (st : Project) (acc : List WsId) (i : Nat),
      closureAuxS fuel st acc i = (st, closureAux st fuel acc i) := by
  intro fuel
  induction fuel with
  | zero => intro st acc i; rfl
  | succ fuel ih =>
    intro st acc i
    simp only [closureAuxS, closureAux, processWorkspaceS_eq]
    split
    · exact ih st _ (i+1)
    · rfl

/-- C9: the closure-computation phase is read-only: threading the
project state through every read of the loop, the state returned when
the loop completes is exactly the project as loaded — same ordered list,
same indexes, same manifests (in particular descriptors that resolve to
no workspace are left untouched) — and the computed required set is the
one the eviction pass receives. -/
theorem focus_closure_readonly (P : Project) (seed : List WsId) :
    (closureAuxS (closureFuel P (setOfList seed)) P (setOfList seed) 0).1 =
        P ∧
      (closureAuxS (closureFuel P (setOfList seed)) P (setOfList seed)
            0).1.workspaces = P.workspaces ∧
      (closureAuxS (closureFuel P (setOfList seed)) P (setOfList seed)
            0).1.workspacesByCwd = P.workspacesByCwd ∧
      (closureAuxS (closureFuel P (setOfList seed)) P (setOfList seed)
            0).1.workspacesByIdent = P.workspacesByIdent ∧
      (closureAuxS (closureFuel P (setOfList seed)) P (setOfList seed)
            0).2 = computeRequired P seed := by
  rw [closureAuxS_eq]
  exact ⟨rfl, rfl, rfl, rfl, rfl⟩

/-! ## Claim C4 -/

/-- C4: across a focus run that reaches the install step, the install
routine is only ever invoked with project-state persistence disabled;
install-state persistence happens exactly once and only after a
successful install; a failing install propagates its error unmodified
and no install-state persistence happens. -/
theorem focus_install_persistence (all production : Bool)
    (names : List IdentHash) (activeWs : Option WsId)
    (install : Project → Bool → Except Nat Unit) (P : Project)
    (seed : List WsId)
    (hseed : selectSeed all names activeWs P = .ok seed) :
    (∀ b, Event.installCall b ∈
        (execute all production names activeWs install P).2.1 →
      b = false) ∧
      (install (evict production (computeRequired P seed) P) false =
          .ok () →
        (execute all production names activeWs install P).2.1 =
            [Event.installCall false, Event.persistInstallState] ∧
          (execute all production names activeWs install P).2.2 = .ok ()) ∧
      ∀ e, install (evict production (computeRequired P seed) P) false =
          .error e →
        (execute all production names activeWs install P).2.1 =
            [Event.installCall false] ∧
          (execute all production names activeWs install P).2.2 =
            .error (.installFailure e) := by
  unfold execute
  rw [hseed]
  cases hinst : install (evict production (computeRequired P seed) P) false
    with
  | error e =>
    simp only [hinst]
    refine ⟨?_, ?_, ?_⟩
    · intro b hb
      simp only [List.mem_singleton, Event.installCall.injEq] at hb
      exact hb
    · intro hok
      exact Except.noConfusion hok
    · intro e' he
      have he2 : e = e' := by injection he
      subst he2
      exact ⟨trivial, rfl⟩
  | ok u =>
    cases u
    simp only [hinst]
    refine ⟨?_, ?_, ?_⟩
    · intro b hb
      simp at hb
      exact hb
    · intro _
      exact ⟨trivial, trivial⟩
    · intro e' he
      exact Except.noConfusion he

/-- Witness for C4 on the sample project with an always-succeeding
install routine: exactly one install call with `persistProject` false,
followed by exactly one install-state persistence. -/
theorem focus_install_persistence_witness :
    (execute true false [] none (fun _ _ => .ok ()) sampleP).2.1 =
        [Event.installCall false, Event.persistInstallState] ∧
      (execute true false [] none (fun _ _ => .ok ()) sampleP).2.2 =
        .ok () := by
  have h := focus_install_persistence true false [] none
    (fun _ _ => .ok ()) sampleP (sampleP.workspaces.map Workspace.wid) rfl
  exact h.2.1 rfl

/-! ## Claim C7 -/

theorem getWorkspaceByIdent_error (P : Project) (n : IdentHash)
    (e : FocusError) (h : getWorkspaceByIdent P n = .error e) :
    e = FocusError.unknownWorkspace := by
  unfold getWorkspaceByIdent at h
  cases hf : P.workspacesByIdent.find? (fun kv => kv.1 == n) with
  | some kv =>
    rw [hf] at h
    exact Except.noConfusion h
  | none =>
    rw [hf] at h
    have h2 := h
    injection h2 with h3
    exact h3.symm

theorem mapM_getWs_ok (P : Project) (g : IdentHash → WsId) :
    ∀ names : List IdentHash,
      (∀ n ∈ names, getWorkspaceByIdent P n = .ok (g n)) →
      names.mapM (getWorkspaceByIdent P) = .ok (names.map g) := by
  intro names
  induction names with
  | nil => intro _; rfl
  | cons a l ih =>
    intro h
    rw [List.mapM_cons, h a (List.mem_cons_self a l),
      ih (fun n hn => h n (List.mem_cons_of_mem a hn))]
    rfl

theorem mapM_getWs_error (P : Project) :
    ∀ names : List IdentHash,
      (∃ n ∈ names,
        getWorkspaceByIdent P n = .error FocusError.unknownWorkspace) →
      names.mapM (getWorkspaceByIdent P) =
        .error FocusError.unknownWorkspace := by
  intro names
  induction names with
  | nil => rintro ⟨n, hn, _⟩; cases hn
  | cons a l ih =>
    rintro ⟨n, hn, hne⟩
    rw [List.mapM_cons]
    cases ha : getWorkspaceByIdent P a with
    | error e =>
      have he : e = FocusError.unknownWorkspace :=
        getWorkspaceByIdent_error P a e ha
      subst he
      rfl
    | ok w =>
      have hn2 : n ∈ l := by
        rcases List.mem_cons.1 hn with rfl | h2
        · rw [ha] at hne
          exact Except.noConfusion hne
        · exact h2
      rw [ih ⟨n, hn2, hne⟩]
      rfl

/-- C7: seed selection follows the spec and all of its errors occur
before any mutation: with the install-everything flag the seed is the
full workspace list; with explicit names the seed is exactly those
workspaces and `UnknownWorkspace` is raised when a name does not
resolve; otherwise the seed is the active workspace and
`NoActiveWorkspace` is raised when the context is outside every
workspace — and whenever seed selection errors, the focus run returns
the project exactly as loaded, with no external call made. -/
theorem focus_seed_selection (all production : Bool)
    (names : List IdentHash) (activeWs : Option WsId)
    (install : Project → Bool → Except Nat Unit) (P : Project) :
    (all = true →
        selectSeed all names activeWs P =
          .ok (P.workspaces.map Workspace.wid)) ∧
      (all = false → names = [] → activeWs = none →
        selectSeed all names activeWs P = .error .noActiveWorkspace) ∧
      (all = false → names = [] → ∀ w, activeWs = some w →
        selectSeed all names activeWs P = .ok [w]) ∧
      (all = false → names ≠ [] → ∀ g : IdentHash → WsId,
        (∀ n ∈ names, getWorkspaceByIdent P n = .ok (g n)) →
        selectSeed all names activeWs P = .ok (names.map g)) ∧
      (all = false → names ≠ [] →
        (∃ n ∈ names,
          getWorkspaceByIdent P n = .error FocusError.unknownWorkspace) →
        selectSeed all names activeWs P = .error .unknownWorkspace) ∧
      ∀ e, selectSeed all names activeWs P = .error e →
        execute all production names activeWs install P =
          (P, [], .error e) := by
  refine ⟨?_, ?_, ?_, ?_, ?_, ?_⟩
  · rintro rfl
    simp [selectSeed]
  · rintro rfl rfl rfl
    simp [selectSeed]
  · rintro rfl rfl w rfl
    simp [selectSeed]
  · rintro rfl hne g hg
    have hni : names.isEmpty = false := by
      cases names with
      | nil => exact absurd rfl hne
      | cons a l => rfl
    simp only [selectSeed, Bool.false_eq_true, if_false, hni]
    exact mapM_getWs_ok P g names hg
  · rintro rfl hne hex
    have hni : names.isEmpty = false := by
      cases names with
      | nil => exact absurd rfl hne
      | cons a l => rfl
    simp only [selectSeed, Bool.false_eq_true, if_false, hni]
    exact mapM_getWs_error P names hex
  · intro e he
    unfold execute
    rw [he]

/-- Witness for C7 on the sample project: with no flag, no names and no
active workspace the run fails with `NoActiveWorkspace` and the project
is returned exactly as loaded with no external call. -/
theorem focus_seed_selection_witness :
    selectSeed false [] none sampleP = .error .noActiveWorkspace ∧
      execute false false [] none (fun _ _ => .ok ()) sampleP =
        (sampleP, [], .error .noActiveWorkspace) := by
  have h := focus_seed_selection false false [] none
    (fun _ _ => .ok ()) sampleP
  have h1 := h.2.1 rfl rfl rfl
  exact ⟨h1, h.2.2.2.2.2 FocusError.noActiveWorkspace h1⟩

end Focus
